import Mathlib

/-!
Shallow embedding of the rate-acquisition pipeline of ValutaTradeHub
(`valutatrade_hub/parser_service/{updater,storage,api_clients,config}.py`
and `valutatrade_hub/core/{utils,currencies}.py`).

Modelling conventions:
* Python dicts become association lists `List (String × α)` with first-match
  lookup (`alookup`) and in-place-or-append update (`upsert`), which matches
  CPython insertion-order semantics.
* Python floats become `ℚ`; the claims under study only use field operations
  and comparisons, where rationals model the intended arithmetic exactly.
* Exceptions become `Except`; catching `Exception` becomes matching on
  `Except.error`.
* File and network side effects become explicit state passing plus an
  explicit effect trace (`Eff`).
* `datetime.utcnow()` becomes an explicit `now : Int` (seconds) or
  `nowStr : String` parameter.
-/

deriving instance DecidableEq for Except

namespace ValutaTradeHub

/-- First-match association-list lookup, modelling Python `dict[k]` /
`dict.get(k)` (dict keys are unique, so first match is the match). -/
def alookup {α : Type} : List (String × α) → String → Option α
  | [], _ => none
  | (k, v) :: rest, q => if k = q then some v else alookup rest q

/-- Key set of an association list. -/
def keysOf {α : Type} (l : List (String × α)) : List String :=
  l.map Prod.fst

/-- Replace-in-place-or-append update, modelling Python `dict[k] = v`:
an existing key keeps its position, a new key goes to the end. -/
def upsert {α : Type} (k : String) (v : α) : List (String × α) → List (String × α)
  | [] => [(k, v)]
  | (k1, v1) :: rest => if k1 = k then (k, v) :: rest else (k1, v1) :: upsert k v rest

/-- Left fold of `upsert` over a dict's items, each value transformed by
`g`: the shape shared by Python `acc.update(rates)` and the entry-building
write loop of `save_current_rates`. -/
def upsertMany {α β : Type} (g : β → α) (acc : List (String × α))
    (rates : List (String × β)) : List (String × α) :=
  rates.foldl (fun a kv => upsert kv.1 (g kv.2) a) acc

/-- Python `acc.update(rates)`: fold the right dict into the left one. -/
def dictUpdate {α : Type} (acc rates : List (String × α)) : List (String × α) :=
  upsertMany (fun v => v) acc rates

/-- Python truthy `or` on an optional string: `x or d` is `d` when `x` is
`None` or the empty string. -/
def pyOrElse (x : Option String) (d : String) : String :=
  match x with
  | some s => if s = "" then d else s
  | none => d

/-- The whitespace characters Python `str.strip()` removes (ASCII set;
all strings this system normalises are ASCII). -/
def isPySpace (c : Char) : Bool :=
  c = ' ' ∨ c = '\t' ∨ c = '\n' ∨ c = '\r' ∨ c = '\x0b' ∨ c = '\x0c'

/-- Drop leading whitespace. -/
def dropLeadingSpaces : List Char → List Char
  | [] => []
  | c :: cs => if isPySpace c then dropLeadingSpaces cs else c :: cs

/-- Python `s.strip()`: whitespace removed from both ends. -/
def pyStrip (l : List Char) : List Char :=
  (dropLeadingSpaces (dropLeadingSpaces l).reverse).reverse

/-- ASCII lower-casing of one character (Python `str.lower()` restricted
to the ASCII source ids this system compares). -/
def lowerChar (c : Char) : Char :=
  if 'A' ≤ c ∧ c ≤ 'Z' then Char.ofNat (c.toNat + 32) else c

/-- ASCII upper-casing of one character (Python `str.upper()` restricted
to the ASCII currency codes this system compares). -/
def upperChar (c : Char) : Char :=
  if 'a' ≤ c ∧ c ≤ 'z' then Char.ofNat (c.toNat - 32) else c

/-- Python `s.strip().lower()` as used by `RatesUpdater._select_clients`. -/
def stripLower (s : String) : String := ⟨(pyStrip s.toList).map lowerChar⟩

/-- Python `s.strip().upper()` as used by `currencies.get_currency`. -/
def stripUpper (s : String) : String := ⟨(pyStrip s.toList).map upperChar⟩

/-- One byte of a decimal digit. -/
def isDigitB (b : Nat) : Bool := 48 ≤ b ∧ b ≤ 57

/-- UTF-8 encoding of one Unicode scalar value, as a byte list. -/
def utf8Bytes (n : Nat) : List Nat :=
  if n < 128 then [n]
  else if n < 2048 then [192 + n / 64, 128 + n % 64]
  else if n < 65536 then [224 + n / 4096, 128 + n / 64 % 64, 128 + n % 64]
  else [240 + n / 262144, 128 + n / 4096 % 64, 128 + n / 64 % 64, 128 + n % 64]

/-- The UTF-8 bytes of a string: the buffer the CPython C parser
(`Modules/_datetimemodule.c`) actually reads. -/
def strBytes (s : String) : List Nat :=
  (s.toList.map (fun c => utf8Bytes c.toNat)).flatten

/-- Byte at an index, with the NUL terminator (0) beyond the end, exactly
as C reads one byte past a component. -/
def byteAt (bs : List Nat) (i : Nat) : Nat := bs.getD i 0

/-- C `parse_digits`: exactly `n` ASCII digit bytes starting at `pos`,
returning the value and the next position. -/
def parseDigitsB (bs : List Nat) : Nat → Nat → Nat → Option (Nat × Nat)
  | pos, 0, acc => some (acc, pos)
  | pos, n + 1, acc =>
    let b := byteAt bs pos
    if isDigitB b then parseDigitsB bs (pos + 1) n (acc * 10 + (b - 48)) else none

/-- End of the digit run starting at `idx` (bounded scan used by the
separator finder for basic-format week dates). -/
def digitRunEnd (bs : List Nat) : Nat → Nat → Nat
  | idx, 0 => idx
  | idx, fuel + 1 =>
    if idx < bs.length ∧ isDigitB (byteAt bs idx) then digitRunEnd bs (idx + 1) fuel
    else idx

/-- C `_find_isoformat_datetime_separator`: the byte index where the date
portion ends (the date/time separator position), `none` on a malformed
shape.  Mirrors the C heuristics, including the documented ambiguity rule
for `YYYY-Www-D` versus a digit separator. -/
def findSeparator (bs : List Nat) : Option Nat :=
  let n := bs.length
  if n = 7 then some 7
  else if byteAt bs 4 = 45 then
    if byteAt bs 5 = 87 then
      if n < 8 then none
      else if n > 8 ∧ byteAt bs 8 = 45 then
        if n = 9 then none
        else if n > 10 ∧ isDigitB (byteAt bs 10) then some 8
        else some 10
      else some 8
    else some 10
  else
    if byteAt bs 4 = 87 then
      let idx := digitRunEnd bs 7 n
      if idx < 9 then some idx
      else if idx % 2 = 0 then some 7
      else some 8
    else some 8

/-- Gregorian leap year. -/
def isLeap (y : Nat) : Bool := y % 4 = 0 ∧ (y % 100 ≠ 0 ∨ y % 400 = 0)

/-- Days in a month, as `datetime` validates them. -/
def daysInMonth (y m : Nat) : Nat :=
  if m = 2 ∧ isLeap y then 29
  else [31, 28, 31, 30, 31, 30, 31, 31, 30, 31, 30, 31].getD (m - 1) 31

/-- Days since 1970-01-01 of a civil date (standard days-from-civil
formula; `y1` is non-negative for every year ≥ 1 this parser accepts, so
`Int` truncating division agrees with floor). -/
def daysFromCivil (y m d : Int) : Int :=
  let y1 : Int := if m ≤ 2 then y - 1 else y
  let era : Int := y1 / 400
  let yoe : Int := y1 - era * 400
  let mp : Int := (m + 9) % 12
  let doy : Int := (153 * mp + 2) / 5 + d - 1
  let doe : Int := yoe * 365 + yoe / 4 - yoe / 100 + doy
  era * 146097 + doe - 719468

/-- Inverse of `daysFromCivil` (standard civil-from-days formula), used by
the ISO-week-date conversion; its argument is shifted non-negative for
every date this parser can produce. -/
def civilFromDays (z : Int) : Nat × Nat × Nat :=
  let zn := (z + 719468).toNat
  let era := zn / 146097
  let doe := zn % 146097
  let yoe := (doe - doe / 1460 + doe / 36524 - doe / 146096) / 365
  let y := yoe + era * 400
  let doy := doe - (365 * yoe + yoe / 4 - yoe / 100)
  let mp := (5 * doy + 2) / 153
  let d := doy - (153 * mp + 2) / 5 + 1
  let m := if mp < 10 then mp + 3 else mp - 9
  (if m ≤ 2 then y + 1 else y, m, d)

/-- Seconds since the Unix epoch of a civil date-time. -/
def epochSeconds (y m d h mi s : Nat) : Int :=
  daysFromCivil y m d * 86400 + (h * 3600 + mi * 60 + s : Nat)

/-- C `iso_to_ymd` composed with the `date` constructor bounds: convert an
ISO week date to Gregorian, rejecting invalid weeks (53 only in long
years: years starting on Thursday, or leap years starting on Wednesday),
invalid weekdays, and results outside year 1–9999. -/
def isoToYmd (isoYear week day : Nat) : Option (Nat × Nat × Nat) :=
  let weekOk :=
    (0 < week ∧ week < 53) ∨
    (week = 53 ∧ 1 ≤ isoYear ∧ isoYear ≤ 9999 ∧
      (let wd := (((daysFromCivil isoYear 1 1 + 3) % 7 + 7) % 7 : Int)
       wd = 3 ∨ (wd = 2 ∧ isLeap isoYear)))
  if ¬ weekOk then none
  else if ¬ (0 < day ∧ day < 8) then none
  else if ¬ (1 ≤ isoYear ∧ isoYear ≤ 9999) then none
  else
    let firstday := daysFromCivil isoYear 1 1
    let firstweekday := ((firstday + 3) % 7 + 7) % 7
    let week1monday := firstday - firstweekday + (if firstweekday > 3 then 7 else 0)
    let z := week1monday + ((week - 1) * 7 + (day - 1) : Nat)
    let ymd := civilFromDays z
    if 1 ≤ ymd.1 ∧ ymd.1 ≤ 9999 then some ymd else none

/-- C `parse_isoformat_date` (plus the `date` constructor bounds): reads
from the full byte buffer; `sepLen` is the designated date length, used
only for the week-day-presence check, exactly as in C. -/
def parseDate (bs : List Nat) (sepLen : Nat) : Option (Nat × Nat × Nat) :=
  match parseDigitsB bs 0 4 0 with
  | none => none
  | some (year, pos0) =>
    let usesSep := byteAt bs pos0 = 45
    let pos1 := if usesSep then pos0 + 1 else pos0
    if byteAt bs pos1 = 87 then
      match parseDigitsB bs (pos1 + 1) 2 0 with
      | none => none
      | some (week, pos2) =>
        if pos2 < sepLen then
          if usesSep ∧ byteAt bs pos2 ≠ 45 then none
          else
            let pos3 := if usesSep then pos2 + 1 else pos2
            match parseDigitsB bs pos3 1 0 with
            | none => none
            | some (day, _) => isoToYmd year week day
        else isoToYmd year week 1
    else
      match parseDigitsB bs pos1 2 0 with
      | none => none
      | some (month, pos2) =>
        if usesSep ∧ byteAt bs pos2 ≠ 45 then none
        else
          let pos3 := if usesSep then pos2 + 1 else pos2
          match parseDigitsB bs pos3 2 0 with
          | none => none
          | some (day, _) =>
            if 1 ≤ year ∧ year ≤ 9999 ∧ 1 ≤ month ∧ month ≤ 12 ∧
                1 ≤ day ∧ day ≤ daysInMonth year month then
              some (year, month, day)
            else none

/-- Scale factor applied to a fraction shorter than six digits. -/
def fracCorrection : Nat → Nat
  | 1 => 100000
  | 2 => 10000
  | 3 => 1000
  | 4 => 100
  | 5 => 10
  | _ => 1

/-- Result of the `HH[:?MM[:?SS]]` component loop of C
`parse_hh_mm_ss_ff`. -/
inductive CompResult where
  | done (h m s rv : Nat)
  | fraction (h m s pos : Nat)
  | failed
deriving DecidableEq, Repr

/-- Store into the component triple by index. -/
def setComp (c : Nat × Nat × Nat) (i v : Nat) : Nat × Nat × Nat :=
  match i with
  | 0 => (v, c.2.1, c.2.2)
  | 1 => (c.1, v, c.2.2)
  | _ => (c.1, c.2.1, v)

/-- The three-component loop of C `parse_hh_mm_ss_ff` over the region
ending at `pEnd`: after each two-digit component one byte is consumed; at
the region boundary that byte is swallowed (`rv = 1` unless it is the NUL
terminator); a colon continues in extended style, a dot or comma breaks to
the fraction, and in basic style the byte is pushed back and parsing
continues. -/
def compLoop (bs : List Nat) (pEnd : Nat) :
    Nat → Nat → Bool → Nat × Nat × Nat → CompResult
  | 0, pos, _, comps => .fraction comps.1 comps.2.1 comps.2.2 pos
  | fuel + 1, pos, hasSep0, comps =>
    match parseDigitsB bs pos 2 0 with
    | none => .failed
    | some (v, pos1) =>
      let i := 3 - (fuel + 1)
      let comps := setComp comps i v
      let c := byteAt bs pos1
      let pos2 := pos1 + 1
      let hasSep := if i = 0 then c = 58 else hasSep0
      if pos2 ≥ pEnd then
        .done comps.1 comps.2.1 comps.2.2 (if c = 0 then 0 else 1)
      else if c = 58 then
        if hasSep then compLoop bs pEnd fuel pos2 hasSep comps else .failed
      else if c = 46 ∨ c = 44 then .fraction comps.1 comps.2.1 comps.2.2 pos2
      else if ¬ hasSep then compLoop bs pEnd fuel pos1 hasSep comps
      else .failed

/-- Scan the bytes after the fraction digits: C stops at the first
non-digit, reporting a clean end (`0`) for the NUL terminator and junk
(`1`) for anything else, ignoring whatever follows. -/
def fracTailRv (bs : List Nat) (pEnd : Nat) : Nat → Nat → Nat
  | _, 0 => 0
  | pos, fuel + 1 =>
    if pos < pEnd then
      let c := byteAt bs pos
      if isDigitB c then fracTailRv bs pEnd (pos + 1) fuel
      else if c = 0 then 0 else 1
    else 0

/-- C `parse_hh_mm_ss_ff` over the region `[start, pEnd)` of the buffer:
components, optional fraction of up to six digits (longer all-digit
fractions are truncated), and the leftover verdict `rv`. -/
def hhMmSsFf (bs : List Nat) (start pEnd : Nat) :
    Option (Nat × Nat × Nat × Nat × Nat) :=
  match compLoop bs pEnd 3 start false (0, 0, 0) with
  | .failed => none
  | .done h m s rv => some (h, m, s, 0, rv)
  | .fraction h m s pos =>
    let lenRem := pEnd - pos
    let toParse := min 6 lenRem
    match parseDigitsB bs pos toParse 0 with
    | none => none
    | some (us0, pos1) =>
      let us := us0 * fracCorrection toParse
      some (h, m, s, us, fracTailRv bs pEnd pos1 (pEnd - pos1))

/-- First index in `[start, n)` holding a timezone marker byte
(`Z`, `+` or `-`), else `n`. -/
def tzScan (bs : List Nat) (n : Nat) : Nat → Nat → Nat
  | pos, 0 => pos
  | pos, fuel + 1 =>
    if pos < n then
      let b := byteAt bs pos
      if b = 90 ∨ b = 43 ∨ b = 45 then pos else tzScan bs n (pos + 1) fuel
    else pos

/-- C `parse_isoformat_time` on the region `[start, length)`: splits at
the first timezone marker, parses the clock components (junk swallowed at
the marker boundary is tolerated), then the timezone — a final `Z`, or a
signed `HH[:?MM[:?SS[.ffffff]]]` offset strictly under 24 hours — and
applies the `datetime` constructor bounds to the clock fields. -/
def parseTime (bs : List Nat) (start : Nat) :
    Option (Nat × Nat × Nat × Nat × Bool) :=
  let n := bs.length
  if n ≤ start then none
  else
    let tzPos := tzScan bs n start (n - start)
    match hhMmSsFf bs start tzPos with
    | none => none
    | some (h, m, s, us, rv) =>
      let aware? : Option Bool :=
        if tzPos = n then
          if rv = 1 then none else some false
        else if byteAt bs tzPos = 90 then
          if tzPos + 1 = n then some true else none
        else
          match hhMmSsFf bs (tzPos + 1) n with
          | none => none
          | some (th, tm, ts, tus, trv) =>
            if trv ≠ 0 then none
            else if (th * 3600 + tm * 60 + ts) * 1000000 + tus < 86400000000 then
              some true
            else none
      match aware? with
      | none => none
      | some aw =>
        if h ≤ 23 ∧ m ≤ 59 ∧ s ≤ 59 then some (h, m, s, us, aw) else none

/-- A parsed `datetime`: the clock fields and whether a timezone was
attached. -/
structure PyDateTime where
  year : Nat
  month : Nat
  day : Nat
  hour : Nat
  minute : Nat
  second : Nat
  microsecond : Nat
  aware : Bool
deriving DecidableEq, Repr

/-- `datetime.fromisoformat` of CPython 3.11 (the C accelerator) over the
UTF-8 byte buffer: date up to the found separator, then the separator is
skipped by its UTF-8 width, then the time-of-day with optional
timezone. -/
def datetimeFromisoformat (bs : List Nat) : Option PyDateTime :=
  let n := bs.length
  if n < 7 then none
  else
    match findSeparator bs with
    | none => none
    | some sep =>
      match parseDate bs sep with
      | none => none
      | some (y, mo, d) =>
        if sep < n then
          let b := byteAt bs sep
          let skip :=
            if b < 128 then 1
            else if 224 ≤ b ∧ b ≤ 239 then 3
            else if 240 ≤ b then 4
            else 2
          match parseTime bs (sep + skip) with
          | none => none
          | some (h, mi, s, us, aw) => some ⟨y, mo, d, h, mi, s, us, aw⟩
        else some ⟨y, mo, d, 0, 0, 0, 0, false⟩

/-- Python `value.replace("Z", "+00:00")` on the byte buffer (the pattern
`Z` is a single ASCII byte, which never occurs inside a multi-byte UTF-8
sequence, so byte-level replacement coincides with string-level). -/
def replaceZ : List Nat → List Nat
  | [] => []
  | b :: rest =>
    if b = 90 then 43 :: 48 :: 48 :: 58 :: 48 :: 48 :: replaceZ rest
    else b :: replaceZ rest

/-- The clock fields of a parsed datetime as epoch seconds, microseconds
floored (the embedding models time at seconds granularity). -/
def clockEpoch (dt : PyDateTime) : Int :=
  epochSeconds dt.year dt.month dt.day dt.hour dt.minute dt.second

/-- Model of `_parse_iso_datetime` composed with the naive-datetime
requirement of its caller `is_rate_fresh`:

* a trailing `Z` first has every `Z` rewritten to `+00:00` (Python
  `value.replace("Z", "+00:00")`); a successful parse of the rewritten
  string then has its timezone discarded (`.replace(tzinfo=None)`), so
  the clock fields are used as naive UTC;
* without a trailing `Z`, an aware parse (any timezone attached) makes
  the caller subtract an aware datetime from the naive `utcnow()`, which
  raises `TypeError` and lands in `is_rate_fresh`'s `except` — modelled
  as `none` here;
* anything `fromisoformat` rejects is `none`. -/
def parseIsoDatetime (value : String) : Option Int :=
  let bs := strBytes value
  if bs.getLast? = some 90 then
    match datetimeFromisoformat (replaceZ bs) with
    | some dt => some (clockEpoch dt)
    | none => none
  else
    match datetimeFromisoformat bs with
    | some dt => if dt.aware then none else some (clockEpoch dt)
    | none => none

/-- One settings lookup of `SettingsLoader.get(key, default)` over the
merged configuration map (integer-valued keys are all the claims need). -/
def settingsGet (cfg : List (String × Int)) (key : String) (default : Int) : Int :=
  (alookup cfg key).getD default

/-- Model of `core.utils.is_rate_fresh`.  `ttl?` is the optional per-call
TTL; when absent the TTL is read from the settings key
`rates_ttl_seconds` with default `3600`.  `now` models
`datetime.utcnow()` in epoch seconds.  The Python function wraps its body
in `try/except Exception: return False`; the model is total by
construction and maps every parse failure to `false`. -/
def is_rate_fresh (updated_at : String) (ttl? : Option Int)
    (cfg : List (String × Int)) (now : Int) : Bool :=
  if updated_at = "" then false
  else
    let ttl := match ttl? with
      | none => settingsGet cfg "rates_ttl_seconds" 3600
      | some t => t
    match parseIsoDatetime updated_at with
    | none => false
    | some dt => now - dt ≤ ttl

/-- One cached rate entry (`RateEntry` of the snapshot JSON).  The
write-back path of `get_fresh_rate` emits entries without a `source`
key, hence `Option`. -/
structure RateEntry where
  rate : ℚ
  updated_at : String
  source : Option String
deriving DecidableEq, Repr

/-- The rates snapshot (`RatesSnapshot`): the parsed contents of the
current-rates JSON file. -/
structure Snapshot where
  pairs : List (String × RateEntry)
  last_refresh : Option String
  source : Option String
deriving DecidableEq, Repr

/-- The well-shaped empty snapshot `RatesStorage.load_current_rates`
returns for a missing or corrupt file. -/
def emptySnapshot : Snapshot := ⟨[], none, none⟩

/-- Model of `RatesStorage.save_current_rates`.  `lastRefresh?` is the
optional explicit timestamp (Python `last_refresh or utcnow…` is falsy-or),
`now` models `datetime.utcnow().replace(microsecond=0).isoformat()`, and
`snap` is the existing snapshot read back from disk.  Returns the written
snapshot and the returned timestamp. -/
def save_current_rates (rates : List (String × ℚ)) (source : String)
    (lastRefresh? : Option String) (now : String) (snap : Snapshot) :
    Snapshot × String :=
  let timestamp := pyOrElse lastRefresh? now
  let existingPairs := snap.pairs
  let (currentPairs, effectiveSource) :=
    if source ≠ "multiple" ∧ existingPairs ≠ [] then (existingPairs, "multiple")
    else (([] : List (String × RateEntry)), source)
  let finalPairs :=
    upsertMany (fun r => (⟨r, timestamp, some source⟩ : RateEntry)) currentPairs rates
  (⟨finalPairs, some timestamp, some effectiveSource⟩, timestamp)

/-- One history record (`HistoryRecord`); the constant `meta` object is
omitted as it carries no claim-relevant data. -/
structure HistRecord where
  id : String
  from_currency : String
  to_currency : String
  rate : ℚ
  timestamp : String
  source : String
deriving DecidableEq, Repr

/-- Split at the first underscore, returning both halves. -/
def splitFirstUnderscore : List Char → Option (List Char × List Char)
  | [] => none
  | c :: cs =>
    if c = '_' then some ([], cs)
    else
      match splitFirstUnderscore cs with
      | none => none
      | some (a, b) => some (c :: a, b)

/-- Python `pair.split("_")` unpacked into exactly two names: succeeds
precisely when the string holds exactly one underscore (otherwise the
unpacking raises `ValueError`). -/
def splitPair (s : String) : Option (String × String) :=
  match splitFirstUnderscore s.toList with
  | none => none
  | some (a, b) =>
    if '_' ∈ b then none else some (⟨a⟩, ⟨b⟩)

/-- Record list built by the loop of `save_historical_record`; `error`
models the `ValueError` of unpacking a key without exactly one
underscore (raised before anything is written). -/
def buildRecords (source timestamp : String) :
    List (String × ℚ) → Except Unit (List HistRecord)
  | [] => .ok []
  | (pair, rate) :: rest =>
    match splitPair pair with
    | none => .error ()
    | some (f, t) =>
      match buildRecords source timestamp rest with
      | .error e => .error e
      | .ok recs =>
        .ok (⟨pair ++ "_" ++ timestamp, f, t, rate, timestamp, source⟩ :: recs)

/-- Model of `RatesStorage.save_historical_record`: appends one record per
pair to the history file and returns the pair count; empty input returns
`0` without touching the file; a malformed pair key raises before the
single file write at the end, leaving the history unchanged. -/
def save_historical_record (rates : List (String × ℚ)) (source timestamp : String)
    (hist : List HistRecord) : Except Unit (List HistRecord × Nat) :=
  if rates = [] then .ok (hist, 0)
  else
    match buildRecords source timestamp rates with
    | .error _ => .error ()
    | .ok recs => .ok (hist ++ recs, rates.length)

/-! ### Parser-service configuration and API-client response parsing -/

/-- `ParserConfig.BASE_CURRENCY`. -/
def BASE_CURRENCY : String := "USD"

/-- `ParserConfig.FIAT_CURRENCIES`. -/
def FIAT_CURRENCIES : List String := ["EUR", "GBP", "RUB", "JPY", "CNY"]

/-- `ParserConfig.CRYPTO_ID_MAP`. -/
def CRYPTO_ID_MAP : List (String × String) :=
  [("BTC", "bitcoin"), ("ETH", "ethereum"), ("SOL", "solana")]

/-- Response-normalisation step of `CoinGeckoClient.fetch_rates`: `data` is
the parsed JSON response (coin id → quote currency → price).  For each
configured coin present in the response with a quote in the base currency,
emits `CODE_BASE ↦ price`; the price value is passed through unchecked. -/
def coinGeckoRates (data : List (String × List (String × ℚ))) : List (String × ℚ) :=
  CRYPTO_ID_MAP.foldl
    (fun acc kv =>
      match alookup data kv.2 with
      | none => acc
      | some quotes =>
        match alookup quotes (⟨BASE_CURRENCY.toList.map lowerChar⟩ : String) with
        | none => acc
        | some v => acc ++ [(kv.1 ++ "_" ++ BASE_CURRENCY, v)])
    []

/-- Response-normalisation step of `ExchangeRateApiClient.fetch_rates` on a
successful response: inverts each configured fiat quote
(provider gives BASE→CUR, the cache wants CUR→BASE), discarding missing
and non-positive values. -/
def exchangeRateRates (conversion_rates : List (String × ℚ)) : List (String × ℚ) :=
  FIAT_CURRENCIES.foldl
    (fun acc c =>
      match alookup conversion_rates c with
      | none => acc
      | some raw =>
        if raw ≤ 0 then acc
        else acc ++ [(c ++ "_" ++ BASE_CURRENCY, 1 / raw)])
    []

/-! ### Updater -/

/-- What one client's `fetch_rates()` call does in a given run: either
raises (`error` carries the message) or returns a rate dict.  The two
real clients always return dicts keyed `CODE_BASE`. -/
abbrev FetchOutcome := Except String (List (String × ℚ))

/-- The report dict returned by `RatesUpdater.run_update`. -/
structure UpdateReport where
  ok : Bool
  updated_pairs : Nat
  history_added : Nat
  failed_sources : List String
  last_refresh : Option String
deriving DecidableEq, Repr

/-- The two files owned by the storage layer, as parsed values. -/
structure UpdState where
  snapshot : Snapshot
  history : List HistRecord
deriving DecidableEq, Repr

/-- The `ValueError` message of `RatesUpdater._select_clients` (hard-coded
to the two default source ids). -/
def unknownSourceMsg : String :=
  "Указан неизвестный источник. Используйте \u0027coingecko\u0027 или \u0027exchangerate\u0027."

/-- Model of `RatesUpdater._select_clients`: `none` selects every
configured client; a name is normalised with `strip().lower()` and must be
a configured source id, else a `ValueError` naming the valid choices. -/
def selectClients (clients : List (String × FetchOutcome)) :
    Option String → Except String (List (String × FetchOutcome))
  | none => .ok clients
  | some src =>
    let s := stripLower src
    match alookup clients s with
    | some c => .ok [(s, c)]
    | none => .error unknownSourceMsg

/-- The per-client loop of `run_update`: on a successful fetch the rates
are merged into the aggregate dict, then appended to the history file; on
any exception (a failed fetch, or a malformed key detected inside
`save_historical_record`) the source is recorded as failed and the loop
continues.  Note the aggregate merge happens before the history write, so
rates of a source whose history write fails still count. -/
def runClients (timestamp : String) :
    List (String × FetchOutcome) → List (String × ℚ) → List String → Nat →
    List HistRecord → List (String × ℚ) × List String × Nat × List HistRecord
  | [], allRates, failed, histAdded, hist => (allRates, failed, histAdded, hist)
  | (name, outcome) :: rest, allRates, failed, histAdded, hist =>
    match outcome with
    | .error _ => runClients timestamp rest allRates (failed ++ [name]) histAdded hist
    | .ok rates =>
      let allRates1 := dictUpdate allRates rates
      match save_historical_record rates name timestamp hist with
      | .ok (hist1, n) => runClients timestamp rest allRates1 failed (histAdded + n) hist1
      | .error _ => runClients timestamp rest allRates1 (failed ++ [name]) histAdded hist

/-- Model of `RatesUpdater.run_update`.  `clients` is the configured
source map (`source_id → fetch behaviour` for this run), `source?` the
optional filter, `now` the timestamp string `utcnow` would produce, and
`st` the on-disk state.  Returns the report (or the propagated
configuration `ValueError`) together with the final on-disk state. -/
def run_update (clients : List (String × FetchOutcome)) (source? : Option String)
    (now : String) (st : UpdState) : Except String UpdateReport × UpdState :=
  match selectClients clients source? with
  | .error e => (.error e, st)
  | .ok selected =>
    let (allRates, failed, histAdded, hist1) :=
      runClients now selected [] [] 0 st.history
    let updatedPairs := allRates.length
    let (lastRefresh, snap1) :=
      if allRates = [] then ((none : Option String), st.snapshot)
      else
        let sourceStr := pyOrElse source? "multiple"
        let (snap1, ts) := save_current_rates allRates sourceStr none now st.snapshot
        (some ts, snap1)
    (.ok ⟨decide (failed.length < selected.length ∧ 0 < updatedPairs),
          updatedPairs, histAdded, failed, lastRefresh⟩,
     ⟨snap1, hist1⟩)

/-! ### Currency registry -/

/-- Kind-specific attributes of a registered currency. -/
inductive CurrencyKind where
  | fiat (issuing_country : String)
  | crypto (algorithm : String) (market_cap : ℚ)
deriving DecidableEq, Repr

/-- A registered `Currency` (the display helpers are presentation-only and
not modelled). -/
structure Currency where
  name : String
  code : String
  kind : CurrencyKind
deriving DecidableEq, Repr

/-- The global registry `_registried_currencies` after the module-level
`register_currency` calls at the bottom of `currencies.py`; each entry is
keyed by its (already upper-case, validated) code. -/
def registry : List (String × Currency) :=
  [ ("USD", ⟨"US Dollar", "USD", .fiat "United States"⟩),
    ("EUR", ⟨"Euro", "EUR", .fiat "Eurozone"⟩),
    ("RUB", ⟨"Russian Ruble", "RUB", .fiat "Russian Federation"⟩),
    ("GBP", ⟨"British Pound", "GBP", .fiat "United Kingdom"⟩),
    ("JPY", ⟨"Japanese Yen", "JPY", .fiat "Japan"⟩),
    ("CNY", ⟨"Chinese Yuan", "CNY", .fiat "China"⟩),
    ("BTC", ⟨"Bitcoin", "BTC", .crypto "SHA-256" 1120000000000⟩),
    ("ETH", ⟨"Ethereum", "ETH", .crypto "Ethash" 450000000000⟩) ]

/-- Model of `currencies.get_currency`: look the stripped upper-cased code
up in the registry, raising `CurrencyNotFoundError` when absent. -/
def get_currency (code : String) : Except String Currency :=
  let key := stripUpper code
  match alookup registry key with
  | some c => .ok c
  | none => .error ("Неизвестная валюта \u0027" ++ key ++ "\u0027")

/-! ### Consumer-side rate resolution (`core/utils.py`) -/

/-- Observable side effects of a resolution call: reading the rates file,
going through the fetch-from-parser path (a network round-trip plus a
full updater cycle), and writing the rates file back. -/
inductive Eff where
  | readRates
  | fetchNet
  | writeRates
deriving DecidableEq, Repr

/-- What `fetch_rate_from_parser` does in a given run: its return value
(`none` models both `None` results and swallowed exceptions) and the
contents of the rates file after the updater cycle it triggers. -/
structure FetchBehavior where
  result : Option ℚ
  cacheAfter : Snapshot
deriving DecidableEq, Repr

/-- `is_rate_fresh` exactly as `get_fresh_rate` calls it: no per-call TTL,
so the TTL comes from the settings. -/
def entryFresh (cfg : List (String × Int)) (now : Int) (e : RateEntry) : Bool :=
  is_rate_fresh e.updated_at none cfg now

/-- Steps 3–5 of `get_fresh_rate` (after both cached-pair checks failed):
call `fetch_rate_from_parser`; on `None` raise `ApiRequestError`; else
re-read the cache, prefer a fresh direct or inverse entry that appeared,
and otherwise write the fetched rate back into the snapshot.  Returns
result, final rates-file contents, and the effects of these steps. -/
def resolveViaFetch (cfg : List (String × Int)) (now : Int) (nowStr : String)
    (fb : FetchBehavior) (from_code to_code : String) :
    Except String (ℚ × String) × Snapshot × List Eff :=
  let rate_key := from_code ++ "_" ++ to_code
  let rev_key := to_code ++ "_" ++ from_code
  match fb.result with
  | none =>
    (.error ("Сервис курсов недоступен для " ++ from_code ++ "→" ++ to_code),
     fb.cacheAfter, [.fetchNet])
  | some fetched =>
    let refreshed := fb.cacheAfter
    let step5 : Except String (ℚ × String) × Snapshot × List Eff :=
      (.ok (fetched, nowStr),
       ⟨upsert rate_key ⟨fetched, nowStr, none⟩ refreshed.pairs,
        some nowStr, some "ParserService"⟩,
       [.fetchNet, .readRates, .writeRates])
    let tryRev : Except String (ℚ × String) × Snapshot × List Eff :=
      match alookup refreshed.pairs rev_key with
      | some e =>
        if entryFresh cfg now e ∧ e.rate ≠ 0 then
          (.ok (1 / e.rate, e.updated_at), refreshed, [.fetchNet, .readRates])
        else step5
      | none => step5
    match alookup refreshed.pairs rate_key with
    | some e =>
      if entryFresh cfg now e then
        (.ok (e.rate, e.updated_at), refreshed, [.fetchNet, .readRates])
      else tryRev
    | none => tryRev

/-- Model of `core.utils.get_fresh_rate`.  `cache` is the current contents
of the rates file (`DatabaseManager.load_file("rates_file")` in the
`pairs`-wrapped layout this system writes), `fb` the behaviour of the
fetch-from-parser path in this run, `now`/`nowStr` the wall clock.
Returns the result (`error` models the raised `CurrencyNotFoundError` /
`ApiRequestError`), the final rates-file contents, and the effect trace. -/
def get_fresh_rate (cfg : List (String × Int)) (now : Int) (nowStr : String)
    (cache : Snapshot) (fb : FetchBehavior) (from_currency to_currency : String) :
    Except String (ℚ × String) × Snapshot × List Eff :=
  match get_currency from_currency with
  | .error e => (.error e, cache, [])
  | .ok cf =>
    match get_currency to_currency with
    | .error e => (.error e, cache, [])
    | .ok ct =>
      let from_code := cf.code
      let to_code := ct.code
      let rate_key := from_code ++ "_" ++ to_code
      let rev_key := to_code ++ "_" ++ from_code
      let afterDirect : Except String (ℚ × String) × Snapshot × List Eff :=
        match alookup cache.pairs rev_key with
        | some e =>
          if entryFresh cfg now e ∧ e.rate ≠ 0 then
            (.ok (1 / e.rate, e.updated_at), cache, [.readRates])
          else
            let (r, s, effs) := resolveViaFetch cfg now nowStr fb from_code to_code
            (r, s, .readRates :: effs)
        | none =>
          let (r, s, effs) := resolveViaFetch cfg now nowStr fb from_code to_code
          (r, s, .readRates :: effs)
      match alookup cache.pairs rate_key with
      | some e =>
        if entryFresh cfg now e then
          (.ok (e.rate, e.updated_at), cache, [.readRates])
        else afterDirect
      | none => afterDirect

/-- Model of `core.utils.get_rate`: validates both codes, short-circuits
equal codes to rate `1.0` before any file or network access, and otherwise
delegates to `get_fresh_rate`.  The tuple mirrors
`(success, message, rate, updated_at)`; the non-shortcut message is the
formatted rate text, whose float-rendering details are irrelevant to the
claims and are rendered from the exact rational here. -/
def get_rate (cfg : List (String × Int)) (now : Int) (nowStr : String)
    (cache : Snapshot) (fb : FetchBehavior) (from_currency to_currency : String) :
    Except String (Bool × String × ℚ × String) × Snapshot × List Eff :=
  match get_currency from_currency with
  | .error e => (.error e, cache, [])
  | .ok cf =>
    match get_currency to_currency with
    | .error e => (.error e, cache, [])
    | .ok ct =>
      let from_code := cf.code
      let to_code := ct.code
      if from_code = to_code then
        (.ok (true,
              "Курс " ++ from_code ++ "→" ++ to_code ++ ": 1.0 (одинаковые валюты)",
              1, nowStr),
         cache, [])
      else
        match get_fresh_rate cfg now nowStr cache fb from_currency to_currency with
        | (.error e, s, effs) => (.error e, s, effs)
        | (.ok (rate, updated_at), s, effs) =>
          (.ok (true,
                "Курс " ++ from_code ++ "→" ++ to_code ++ ": " ++ toString rate ++
                " (обновлено: " ++ updated_at ++ ")",
                rate, updated_at),
           s, effs)

/-! ### The snapshot invariant stated by the specification -/

/-- One character of `[A-Z]`. -/
def isUpperAlpha (c : Char) : Bool := 'A' ≤ c ∧ c ≤ 'Z'

/-- `[A-Z]\x7b2,10\x7d` on a character list. -/
def validCodeL (l : List Char) : Bool :=
  decide (2 ≤ l.length) && decide (l.length ≤ 10) && l.all isUpperAlpha

/-- The spec regex `^[A-Z]\x7b2,10\x7d_[A-Z]\x7b2,10\x7d$`: an uppercase
code, one underscore, an uppercase code (splitting at the first
underscore is exact because `[A-Z]` excludes the underscore). -/
def pairKeyValid (s : String) : Bool :=
  match splitFirstUnderscore s.toList with
  | some (a, b) => validCodeL a && validCodeL b
  | none => false

/-- The `RatesSnapshot` invariant claimed in the specification: every pair
key matches the regex and every entry rate is strictly positive. -/
def snapshotInv (snap : Snapshot) : Bool :=
  snap.pairs.all fun kv => pairKeyValid kv.1 && decide (0 < kv.2.rate)

/-! ### Association-list lemmas -/

theorem alookup_upsert {α : Type} (k q : String) (v : α) (l : List (String × α)) :
    alookup (upsert k v l) q = if k = q then some v else alookup l q := by
  induction l with
  | nil => simp [upsert, alookup]
  | cons hd tl ih =>
    obtain ⟨k1, v1⟩ := hd
    by_cases h1 : k1 = k
    · subst h1
      by_cases h2 : k1 = q <;> simp [upsert, alookup, h2]
    · by_cases h2 : k1 = q
      · subst h2
        have : ¬ k = k1 := fun h => h1 h.symm
        simp [upsert, alookup, h1, this]
      · simp [upsert, alookup, h1, h2, ih]

theorem keysOf_append {α : Type} (l1 l2 : List (String × α)) :
    keysOf (l1 ++ l2) = keysOf l1 ++ keysOf l2 := by
  simp [keysOf]

theorem upsert_of_not_mem {α : Type} (k : String) (v : α) (l : List (String × α))
    (h : k ∉ keysOf l) : upsert k v l = l ++ [(k, v)] := by
  induction l with
  | nil => simp [upsert]
  | cons hd tl ih =>
    obtain ⟨k1, v1⟩ := hd
    have hk1 : k1 ≠ k := by
      intro he; exact h (by simp [keysOf, he])
    have htl : k ∉ keysOf tl := fun hm => h (by simp [keysOf] at hm ⊢; tauto)
    simp [upsert, hk1, ih htl]

theorem upsertMany_of_disjoint {α β : Type} (g : β → α)
    (rates : List (String × β)) (acc : List (String × α))
    (hnd : (keysOf rates).Nodup)
    (hdisj : ∀ k ∈ keysOf rates, k ∉ keysOf acc) :
    upsertMany g acc rates = acc ++ rates.map (fun kv => (kv.1, g kv.2)) := by
  induction rates generalizing acc with
  | nil => simp [upsertMany]
  | cons hd tl ih =>
    obtain ⟨k, v⟩ := hd
    have hk : k ∉ keysOf acc := hdisj k (by simp [keysOf])
    have hnd1 : (keysOf tl).Nodup := by
      simp [keysOf] at hnd ⊢; exact hnd.2
    have hknotl : k ∉ keysOf tl := by
      simp [keysOf] at hnd ⊢
      intro a b
      exact hnd.1 a b
    have hdisj1 : ∀ q ∈ keysOf tl, q ∉ keysOf (acc ++ [(k, g v)]) := by
      intro q hq
      rw [keysOf_append]
      simp [keysOf]
      constructor
      · have := hdisj q (by simp [keysOf] at hq ⊢; tauto)
        simpa [keysOf] using this
      · intro he; subst he; exact hknotl hq
    have step : upsertMany g acc ((k, v) :: tl) = upsertMany g (acc ++ [(k, g v)]) tl := by
      simp [upsertMany, List.foldl_cons, upsert_of_not_mem k (g v) acc hk]
    rw [step, ih (acc ++ [(k, g v)]) hnd1 hdisj1]
    simp

theorem alookup_append {α : Type} (l1 l2 : List (String × α)) (q : String) :
    alookup (l1 ++ l2) q =
      match alookup l1 q with
      | some v => some v
      | none => alookup l2 q := by
  induction l1 with
  | nil => simp [alookup]
  | cons hd tl ih =>
    obtain ⟨k, v⟩ := hd
    by_cases h : k = q <;> simp [alookup, h, ih]

theorem alookup_upsertMany_not_mem {α β : Type} (g : β → α)
    (rates : List (String × β)) (acc : List (String × α)) (q : String)
    (h : q ∉ keysOf rates) :
    alookup (upsertMany g acc rates) q = alookup acc q := by
  induction rates generalizing acc with
  | nil => simp [upsertMany]
  | cons hd tl ih =>
    obtain ⟨k, v⟩ := hd
    have hq : q ∉ keysOf tl := fun hm => h (by simp [keysOf] at hm ⊢; tauto)
    have hk : k ≠ q := by
      intro he; exact h (by simp [keysOf, he])
    have step : upsertMany g acc ((k, v) :: tl) = upsertMany g (upsert k (g v) acc) tl := by
      simp [upsertMany, List.foldl_cons]
    rw [step, ih (upsert k (g v) acc) hq, alookup_upsert, if_neg hk]

theorem alookup_upsertMany {α β : Type} (g : β → α)
    (rates : List (String × β)) (acc : List (String × α)) (q : String)
    (hnd : (keysOf rates).Nodup) :
    alookup (upsertMany g acc rates) q =
      match alookup rates q with
      | some v => some (g v)
      | none => alookup acc q := by
  induction rates generalizing acc with
  | nil => simp [upsertMany, alookup]
  | cons hd tl ih =>
    obtain ⟨k, v⟩ := hd
    have hnd1 : (keysOf tl).Nodup := by
      simp [keysOf] at hnd ⊢; exact hnd.2
    have hknotl : k ∉ keysOf tl := by
      simp [keysOf] at hnd ⊢
      intro a b
      exact hnd.1 a b
    have step : upsertMany g acc ((k, v) :: tl) = upsertMany g (upsert k (g v) acc) tl := by
      simp [upsertMany, List.foldl_cons]
    by_cases h : k = q
    · subst h
      rw [step, alookup_upsertMany_not_mem g tl _ k hknotl, alookup_upsert]
      simp [alookup]
    · rw [step, ih (upsert k (g v) acc) hnd1]
      simp only [alookup, h, if_false]
      cases alookup tl q <;> simp [alookup_upsert, if_neg h]

theorem mem_upsert {α : Type} (k : String) (v : α) (l : List (String × α))
    (x : String × α) (h : x ∈ upsert k v l) : x = (k, v) ∨ x ∈ l := by
  induction l with
  | nil => simpa [upsert] using h
  | cons hd tl ih =>
    obtain ⟨k1, v1⟩ := hd
    by_cases h1 : k1 = k
    · subst h1; simp [upsert] at h; tauto
    · simp [upsert, h1] at h
      rcases h with h | h
      · subst h; simp
      · rcases ih h with h | h
        · tauto
        · simp [h]

theorem mem_upsertMany {α β : Type} (g : β → α)
    (rates : List (String × β)) (acc : List (String × α))
    (x : String × α) (h : x ∈ upsertMany g acc rates) :
    x ∈ acc ∨ ∃ kv ∈ rates, x = (kv.1, g kv.2) := by
  induction rates generalizing acc with
  | nil => simpa [upsertMany] using h
  | cons hd tl ih =>
    obtain ⟨k, v⟩ := hd
    have step : upsertMany g acc ((k, v) :: tl) = upsertMany g (upsert k (g v) acc) tl := by
      simp [upsertMany, List.foldl_cons]
    rw [step] at h
    rcases ih (upsert k (g v) acc) h with h1 | h1
    · rcases mem_upsert k (g v) acc x h1 with h2 | h2
      · right; exact ⟨(k, v), by simp, h2⟩
      · left; exact h2
    · obtain ⟨kv, hkv, hx⟩ := h1
      right; exact ⟨kv, by simp [hkv], hx⟩

theorem mem_foldl_append {γ δ : Type} (step : List δ → γ → List δ)
    (P : δ → Prop) (l : List γ)
    (hstep : ∀ a c, c ∈ l → ∀ x ∈ step a c, x ∈ a ∨ P x) :
    ∀ a x, x ∈ l.foldl step a → x ∈ a ∨ P x := by
  induction l with
  | nil => intro a x h; left; simpa using h
  | cons hd tl ih =>
    intro a x h
    have hstep1 : ∀ a c, c ∈ tl → ∀ x ∈ step a c, x ∈ a ∨ P x := by
      intro a c hc; exact hstep a c (by simp [hc])
    rcases ih hstep1 (step a hd) x (by simpa using h) with h1 | h1
    · exact hstep a hd (by simp) x h1
    · right; exact h1

/-! ### Claim theorems -/

/-- C10: `is_rate_fresh` is total (it is a Lean function into `Bool`, and
every exception path of the Python body is modelled as a `false` result,
matching its `try/except Exception: return False` wrapper), and for an
empty string or a string the ISO-8601 parser rejects it returns `False`,
so a cache entry with a missing or malformed `updated_at` is always
treated as stale. -/
theorem is_rate_fresh_total_and_malformed_stale
    (s : String) (ttl? : Option Int) (cfg : List (String × Int)) (now : Int)
    (h : s = "" ∨ parseIsoDatetime s = none) :
    is_rate_fresh s ttl? cfg now = false := by
  rcases h with h | h
  · simp [is_rate_fresh, h]
  · by_cases he : s = ""
    · simp [is_rate_fresh, he]
    · simp [is_rate_fresh, he, h]

/-- Witness for C10 at the concrete malformed inputs `""` and
`"not-a-date"`. -/
theorem is_rate_fresh_total_and_malformed_stale_witness :
    is_rate_fresh "" none [] 0 = false ∧
    is_rate_fresh "not-a-date" (some 3600) [] 1767225600 = false :=
  ⟨is_rate_fresh_total_and_malformed_stale "" none [] 0 (Or.inl rfl),
   is_rate_fresh_total_and_malformed_stale "not-a-date" (some 3600) [] 1767225600
     (Or.inr (by decide))⟩

/-- C9: `_select_clients` normalises the source filter with
`strip().lower()`, so any string whose stripped lower-casing is a
configured source id selects exactly that one client instead of raising
the configuration `ValueError`. -/
theorem select_clients_strips_and_lowercases
    (clients : List (String × FetchOutcome)) (s0 name : String) (c : FetchOutcome)
    (hnorm : stripLower s0 = name) (hc : alookup clients name = some c) :
    selectClients clients (some s0) = .ok [(name, c)] := by
  simp [selectClients, hnorm, hc]

/-- Witness for C9: `" CoinGecko "` selects exactly the `coingecko`
client. -/
theorem select_clients_strips_and_lowercases_witness :
    selectClients [("coingecko", .ok [("BTC_USD", 50000)]), ("exchangerate", .error "x")]
      (some " CoinGecko ") =
      .ok [("coingecko", .ok [("BTC_USD", 50000)])] :=
  select_clients_strips_and_lowercases _ " CoinGecko " "coingecko" _ (by decide) (by decide)

/-- C3: a source filter that does not name a configured source (its
`strip().lower()` normalisation is not a configured source id) makes
`run_update` fail with the configuration `ValueError` naming the valid
choices, and neither the snapshot file nor the history file is mutated:
the on-disk state is returned untouched. -/
theorem run_update_unknown_source_rejected
    (clients : List (String × FetchOutcome)) (s : String) (now : String)
    (st : UpdState) (h : alookup clients (stripLower s) = none) :
    run_update clients (some s) now st = (.error unknownSourceMsg, st) := by
  simp [run_update, selectClients, h]

/-- Witness for C3 at the concrete unknown source name `"binance"` against
the default client map. -/
theorem run_update_unknown_source_rejected_witness :
    run_update [("coingecko", .ok [("BTC_USD", 50000)]), ("exchangerate", .error "x")]
      (some "binance") "2026-01-01T00:00:00" ⟨emptySnapshot, []⟩ =
      (.error unknownSourceMsg, ⟨emptySnapshot, []⟩) :=
  run_update_unknown_source_rejected _ "binance" _ _ (by decide)

/-- C4: `save_current_rates` merge semantics.  When the incoming update
names a single source (not `"multiple"`) and prior pairs exist, the
written pair map is the existing map updated with an entry per incoming
pair and the snapshot-level source becomes `"multiple"`; otherwise the
written map holds exactly the incoming pairs and the snapshot-level
source is the incoming source.  `rates` is a Python dict, so its keys are
assumed distinct. -/
theorem save_current_rates_merge_semantics
    (rates : List (String × ℚ)) (source : String) (lr? : Option String)
    (now : String) (snap : Snapshot) (hnd : (keysOf rates).Nodup) :
    (source ≠ "multiple" → snap.pairs ≠ [] →
      (save_current_rates rates source lr? now snap).1.source = some "multiple" ∧
      (∀ q r, alookup rates q = some r →
        alookup (save_current_rates rates source lr? now snap).1.pairs q =
          some (⟨r, pyOrElse lr? now, some source⟩ : RateEntry)) ∧
      (∀ q, alookup rates q = none →
        alookup (save_current_rates rates source lr? now snap).1.pairs q =
          alookup snap.pairs q)) ∧
    (source = "multiple" ∨ snap.pairs = [] →
      (save_current_rates rates source lr? now snap).1.source = some source ∧
      (save_current_rates rates source lr? now snap).1.pairs =
        rates.map (fun kv => (kv.1, (⟨kv.2, pyOrElse lr? now, some source⟩ : RateEntry)))) := by
  constructor
  · intro hs hp
    have hcond : source ≠ "multiple" ∧ snap.pairs ≠ [] := ⟨hs, hp⟩
    refine ⟨by simp [save_current_rates, if_pos hcond], ?_, ?_⟩
    · intro q r hq
      simp only [save_current_rates, if_pos hcond]
      have h := alookup_upsertMany
        (fun r => (⟨r, pyOrElse lr? now, some source⟩ : RateEntry)) rates snap.pairs q hnd
      rw [hq] at h
      simpa using h
    · intro q hq
      simp only [save_current_rates, if_pos hcond]
      have h := alookup_upsertMany
        (fun r => (⟨r, pyOrElse lr? now, some source⟩ : RateEntry)) rates snap.pairs q hnd
      rw [hq] at h
      simpa using h
  · intro h
    have hcond : ¬ (source ≠ "multiple" ∧ snap.pairs ≠ []) := by tauto
    constructor
    · simp [save_current_rates, if_neg hcond]
    · simp only [save_current_rates, if_neg hcond]
      have := upsertMany_of_disjoint
        (fun r => (⟨r, pyOrElse lr? now, some source⟩ : RateEntry)) rates []
        hnd (by simp [keysOf])
      simpa using this

/-- Witness for C4: merging a one-pair `coingecko` update into an existing
one-pair snapshot keeps the old pair, adds the new one, and marks the
snapshot source `"multiple"`; writing onto an empty snapshot replaces
wholesale. -/
theorem save_current_rates_merge_semantics_witness :
    ((save_current_rates [("BTC_USD", 50000)] "coingecko" none "T1"
        ⟨[("EUR_USD", ⟨2, "T0", some "exchangerate"⟩)], some "T0", some "exchangerate"⟩).1.source
      = some "multiple" ∧
     alookup (save_current_rates [("BTC_USD", 50000)] "coingecko" none "T1"
        ⟨[("EUR_USD", ⟨2, "T0", some "exchangerate"⟩)], some "T0", some "exchangerate"⟩).1.pairs
        "EUR_USD" = some ⟨2, "T0", some "exchangerate"⟩ ∧
     alookup (save_current_rates [("BTC_USD", 50000)] "coingecko" none "T1"
        ⟨[("EUR_USD", ⟨2, "T0", some "exchangerate"⟩)], some "T0", some "exchangerate"⟩).1.pairs
        "BTC_USD" = some ⟨50000, "T1", some "coingecko"⟩) ∧
    (save_current_rates [("BTC_USD", 50000)] "coingecko" none "T1" emptySnapshot).1.pairs
      = [("BTC_USD", ⟨50000, "T1", some "coingecko"⟩)] := by
  constructor
  · have h := (save_current_rates_merge_semantics [("BTC_USD", 50000)] "coingecko" none "T1"
      ⟨[("EUR_USD", ⟨2, "T0", some "exchangerate"⟩)], some "T0", some "exchangerate"⟩
      (by decide)).1 (by decide) (by decide)
    refine ⟨h.1, ?_, ?_⟩
    · have := h.2.2 "EUR_USD" (by simp [alookup])
      rw [this]
      simp [alookup]
    · exact h.2.1 "BTC_USD" 50000 (by simp [alookup])
  · have h := (save_current_rates_merge_semantics [("BTC_USD", 50000)] "coingecko" none "T1"
      emptySnapshot (by decide)).2 (Or.inr rfl)
    simpa [pyOrElse] using h.2

theorem buildRecords_ok (source timestamp : String) (rates : List (String × ℚ))
    (h : ∀ kv ∈ rates, (splitPair kv.1).isSome) :
    ∃ recs, buildRecords source timestamp rates = .ok recs := by
  induction rates with
  | nil => exact ⟨[], rfl⟩
  | cons hd tl ih =>
    obtain ⟨pair, rate⟩ := hd
    have hhd : (splitPair pair).isSome := h (pair, rate) (by simp)
    obtain ⟨⟨f, t⟩, hft⟩ := Option.isSome_iff_exists.mp hhd
    obtain ⟨recs, hrecs⟩ := ih (fun kv hkv => h kv (by simp [hkv]))
    refine ⟨⟨pair ++ "_" ++ timestamp, f, t, rate, timestamp, source⟩ :: recs, ?_⟩
    simp [buildRecords, hft, hrecs]

theorem save_historical_record_ok (rates : List (String × ℚ))
    (source timestamp : String) (hist : List HistRecord)
    (hne : rates ≠ []) (h : ∀ kv ∈ rates, (splitPair kv.1).isSome) :
    ∃ h1, save_historical_record rates source timestamp hist = .ok (h1, rates.length) := by
  obtain ⟨recs, hrecs⟩ := buildRecords_ok source timestamp rates h
  exact ⟨hist ++ recs, by simp [save_historical_record, hne, hrecs]⟩

theorem dictUpdate_nil {α : Type} (r : List (String × α))
    (hnd : (keysOf r).Nodup) : dictUpdate [] r = r := by
  have := upsertMany_of_disjoint (fun v => v) r [] hnd (by simp [keysOf])
  simpa [dictUpdate] using this

theorem runClients_all_fail (timestamp : String)
    (cl : List (String × FetchOutcome)) (ar : List (String × ℚ))
    (fl : List String) (ha : Nat) (h : List HistRecord)
    (hfail : ∀ kv ∈ cl, ∃ e, kv.2 = .error e) :
    runClients timestamp cl ar fl ha h = (ar, fl ++ keysOf cl, ha, h) := by
  induction cl generalizing fl with
  | nil => simp [runClients, keysOf]
  | cons hd tl ih =>
    obtain ⟨name, outcome⟩ := hd
    obtain ⟨e, he⟩ := hfail (name, outcome) (by simp)
    simp only at he
    subst he
    rw [runClients, ih (fl ++ [name]) (fun kv hkv => hfail kv (by simp [hkv]))]
    simp [keysOf]

/-- C2: when every selected source's fetch raises, `run_update` propagates
no exception (it returns a report), the report has `ok = false` and
`updated_pairs = 0`, and the on-disk state — in particular the snapshot
file — is returned exactly as it was. -/
theorem run_update_all_sources_fail
    (clients : List (String × FetchOutcome)) (source? : Option String)
    (now : String) (st : UpdState) (selected : List (String × FetchOutcome))
    (hsel : selectClients clients source? = .ok selected)
    (hfail : ∀ kv ∈ selected, ∃ e, kv.2 = .error e) :
    run_update clients source? now st = (.ok ⟨false, 0, 0, keysOf selected, none⟩, st) := by
  simp only [run_update, hsel]
  rw [runClients_all_fail now selected [] [] 0 st.history hfail]
  simp

/-- Witness for C2: both default sources raising leaves the state intact
and reports `ok = false`, `updated_pairs = 0`. -/
theorem run_update_all_sources_fail_witness :
    run_update [("coingecko", .error "boom"), ("exchangerate", .error "down")] none
      "2026-01-01T00:00:00"
      ⟨⟨[("BTC_USD", ⟨50000, "T0", some "coingecko"⟩)], some "T0", some "coingecko"⟩, []⟩ =
      (.ok ⟨false, 0, 0, ["coingecko", "exchangerate"], none⟩,
       ⟨⟨[("BTC_USD", ⟨50000, "T0", some "coingecko"⟩)], some "T0", some "coingecko"⟩, []⟩) :=
  run_update_all_sources_fail _ none _ _ _ rfl (by
    intro kv hkv
    simp at hkv
    rcases hkv with h | h <;> subst h <;> exact ⟨_, rfl⟩)

/-- C1: over two configured sources where exactly one fetch raises and the
other returns a non-empty rate dict, the report has `ok = true`,
`failed_sources` holding exactly the failing source, and `updated_pairs`
equal to the successful source's pair count.  The dict hypotheses hold for
the two real clients: their rate dicts have distinct keys of the shape
`CODE_BASE` (exactly one underscore, as `save_historical_record`'s key
unpacking requires). -/
theorem run_update_partial_failure_report
    (a b msg : String) (r : List (String × ℚ)) (now : String) (st : UpdState)
    (hne : r ≠ []) (hnd : (keysOf r).Nodup)
    (hkeys : ∀ kv ∈ r, (splitPair kv.1).isSome) :
    (run_update [(a, .error msg), (b, .ok r)] none now st).1 =
      .ok ⟨true, r.length, r.length, [a], some now⟩ ∧
    (run_update [(a, .ok r), (b, .error msg)] none now st).1 =
      .ok ⟨true, r.length, r.length, [b], some now⟩ := by
  have hlen : 0 < r.length := List.length_pos.mpr hne
  constructor
  · obtain ⟨h1, hsave⟩ := save_historical_record_ok r b now st.history hne hkeys
    have hrc : runClients now [(a, Except.error msg), (b, Except.ok r)] [] [] 0 st.history
        = (r, [a], r.length, h1) := by
      simp [runClients, hsave, dictUpdate_nil r hnd]
    simp only [run_update, selectClients, hrc]
    simp [hne, save_current_rates, hlen, pyOrElse]
  · obtain ⟨h1, hsave⟩ := save_historical_record_ok r a now st.history hne hkeys
    have hrc : runClients now [(a, Except.ok r), (b, Except.error msg)] [] [] 0 st.history
        = (r, [b], r.length, h1) := by
      simp [runClients, hsave, dictUpdate_nil r hnd]
    simp only [run_update, selectClients, hrc]
    simp [hne, save_current_rates, hlen, pyOrElse]

/-- Witness for C1 with a one-pair successful source, in both orders. -/
theorem run_update_partial_failure_report_witness :
    (run_update [("coingecko", .error "boom"), ("exchangerate", .ok [("EUR_USD", 2)])]
        none "2026-01-01T00:00:00" ⟨emptySnapshot, []⟩).1 =
      .ok ⟨true, 1, 1, ["coingecko"], some "2026-01-01T00:00:00"⟩ ∧
    (run_update [("coingecko", .ok [("EUR_USD", 2)]), ("exchangerate", .error "boom")]
        none "2026-01-01T00:00:00" ⟨emptySnapshot, []⟩).1 =
      .ok ⟨true, 1, 1, ["exchangerate"], some "2026-01-01T00:00:00"⟩ :=
  run_update_partial_failure_report "coingecko" "exchangerate" "boom"
    [("EUR_USD", 2)] "2026-01-01T00:00:00" ⟨emptySnapshot, []⟩
    (by decide) (by decide) (by decide)

theorem fetchNet_mem_resolveViaFetch (cfg : List (String × Int)) (now : Int)
    (nowStr : String) (fb : FetchBehavior) (fc tc : String) :
    Eff.fetchNet ∈ (resolveViaFetch cfg now nowStr fb fc tc).2.2 := by
  unfold resolveViaFetch
  rcases hres : fb.result with _ | fetched
  · simp [hres]
  · rcases hdir : alookup fb.cacheAfter.pairs (fc ++ "_" ++ tc) with _ | e
    · rcases hrev : alookup fb.cacheAfter.pairs (tc ++ "_" ++ fc) with _ | e1
      · simp [hres, hdir, hrev]
      · simp only [hres, hdir, hrev]
        split <;> simp
    · rcases hrev : alookup fb.cacheAfter.pairs (tc ++ "_" ++ fc) with _ | e1
      · simp only [hres, hdir, hrev]
        split <;> simp
      · simp only [hres, hdir, hrev]
        split
        · simp
        · split <;> simp

/-- C5: a fresh direct cache entry is returned verbatim (its rate and
timestamp, the cache untouched, and the only effect a cache read — no
network fetch); a stale direct entry is never returned without a refresh
attempt: either the fetch-from-parser path runs, or the call is served by
the fresh inverse entry's reciprocal instead. -/
theorem get_fresh_rate_direct_cache_policy
    (cfg : List (String × Int)) (now : Int) (nowStr : String)
    (cache : Snapshot) (fb : FetchBehavior) (f t : String)
    (cf ct : Currency) (e : RateEntry)
    (hf : get_currency f = .ok cf) (ht : get_currency t = .ok ct)
    (_hneq : cf.code ≠ ct.code)
    (hd : alookup cache.pairs (cf.code ++ "_" ++ ct.code) = some e) :
    (is_rate_fresh e.updated_at none cfg now = true →
      get_fresh_rate cfg now nowStr cache fb f t =
        (.ok (e.rate, e.updated_at), cache, [Eff.readRates])) ∧
    (is_rate_fresh e.updated_at none cfg now = false →
      Eff.fetchNet ∈ (get_fresh_rate cfg now nowStr cache fb f t).2.2 ∨
      ∃ e1, alookup cache.pairs (ct.code ++ "_" ++ cf.code) = some e1 ∧
        is_rate_fresh e1.updated_at none cfg now = true ∧ e1.rate ≠ 0 ∧
        (get_fresh_rate cfg now nowStr cache fb f t).1 =
          .ok (1 / e1.rate, e1.updated_at)) := by
  constructor
  · intro hfresh
    simp [get_fresh_rate, hf, ht, hd, entryFresh, hfresh]
  · intro hstale
    rcases hrev : alookup cache.pairs (ct.code ++ "_" ++ cf.code) with _ | e1
    · left
      simp only [get_fresh_rate, hf, ht, hd, entryFresh, hstale, hrev,
        Bool.false_eq_true, if_false]
      simp [fetchNet_mem_resolveViaFetch]
    · by_cases hcond : is_rate_fresh e1.updated_at none cfg now = true ∧ e1.rate ≠ 0
      · right
        refine ⟨e1, rfl, hcond.1, hcond.2, ?_⟩
        simp [get_fresh_rate, hf, ht, hd, entryFresh, hstale, hrev, hcond.1, hcond.2]
      · left
        simp only [get_fresh_rate, hf, ht, hd, entryFresh, hstale, hrev,
          Bool.false_eq_true, if_false]
        have : ¬ (is_rate_fresh e1.updated_at none cfg now = true ∧ ¬ e1.rate = 0) := hcond
        simp only [this, if_false]
        simp [fetchNet_mem_resolveViaFetch]

/-- Witness for C5 at a cache holding a fresh `BTC_USD` entry. -/
theorem get_fresh_rate_direct_cache_policy_witness :
    get_fresh_rate [] 1767225600 "NOW"
      ⟨[("BTC_USD", ⟨50000, "2026-01-01T00:00:00", some "coingecko"⟩)], none, none⟩
      ⟨none, emptySnapshot⟩ "BTC" "USD" =
      (.ok (50000, "2026-01-01T00:00:00"),
       ⟨[("BTC_USD", ⟨50000, "2026-01-01T00:00:00", some "coingecko"⟩)], none, none⟩,
       [Eff.readRates]) :=
  (get_fresh_rate_direct_cache_policy [] 1767225600 "NOW"
    ⟨[("BTC_USD", ⟨50000, "2026-01-01T00:00:00", some "coingecko"⟩)], none, none⟩
    ⟨none, emptySnapshot⟩ "BTC" "USD"
    ⟨"Bitcoin", "BTC", .crypto "SHA-256" 1120000000000⟩
    ⟨"US Dollar", "USD", .fiat "United States"⟩
    ⟨50000, "2026-01-01T00:00:00", some "coingecko"⟩
    (by decide) (by decide) (by decide) (by decide)).1 (by decide)

/-- C6: when the direct pair is stale or missing but the inverse pair is
fresh with a non-zero rate, resolution returns exactly the reciprocal of
the inverse entry's rate together with the inverse entry's timestamp,
with no fetch (the only effect is the cache read) and the cache
unchanged. -/
theorem get_fresh_rate_inverse_reciprocal
    (cfg : List (String × Int)) (now : Int) (nowStr : String)
    (cache : Snapshot) (fb : FetchBehavior) (f t : String)
    (cf ct : Currency) (e1 : RateEntry)
    (hf : get_currency f = .ok cf) (ht : get_currency t = .ok ct)
    (_hneq : cf.code ≠ ct.code)
    (hd : ∀ e, alookup cache.pairs (cf.code ++ "_" ++ ct.code) = some e →
      is_rate_fresh e.updated_at none cfg now = false)
    (hrev : alookup cache.pairs (ct.code ++ "_" ++ cf.code) = some e1)
    (hfresh : is_rate_fresh e1.updated_at none cfg now = true)
    (hnz : e1.rate ≠ 0) :
    get_fresh_rate cfg now nowStr cache fb f t =
      (.ok (1 / e1.rate, e1.updated_at), cache, [Eff.readRates]) := by
  rcases halo : alookup cache.pairs (cf.code ++ "_" ++ ct.code) with _ | e
  · simp [get_fresh_rate, hf, ht, halo, hrev, entryFresh, hfresh, hnz]
  · have hstale := hd e halo
    simp [get_fresh_rate, hf, ht, halo, hrev, entryFresh, hstale, hfresh, hnz]

/-- Witness for C6: `USD→BTC` resolved as the reciprocal of a fresh cached
`BTC_USD` entry. -/
theorem get_fresh_rate_inverse_reciprocal_witness :
    get_fresh_rate [] 1767225600 "NOW"
      ⟨[("BTC_USD", ⟨50000, "2026-01-01T00:00:00", some "coingecko"⟩)], none, none⟩
      ⟨none, emptySnapshot⟩ "USD" "BTC" =
      (.ok (1 / 50000, "2026-01-01T00:00:00"),
       ⟨[("BTC_USD", ⟨50000, "2026-01-01T00:00:00", some "coingecko"⟩)], none, none⟩,
       [Eff.readRates]) :=
  get_fresh_rate_inverse_reciprocal [] 1767225600 "NOW"
    ⟨[("BTC_USD", ⟨50000, "2026-01-01T00:00:00", some "coingecko"⟩)], none, none⟩
    ⟨none, emptySnapshot⟩ "USD" "BTC"
    ⟨"US Dollar", "USD", .fiat "United States"⟩
    ⟨"Bitcoin", "BTC", .crypto "SHA-256" 1120000000000⟩
    ⟨50000, "2026-01-01T00:00:00", some "coingecko"⟩
    (by decide) (by decide) (by decide)
    (by intro e he; simp [alookup] at he)
    (by decide) (by decide) (by decide)

/-- C7: two codes resolving to the same registered currency yield success
with rate exactly `1.0` before any cache, history or network access: the
effect trace is empty and the cache is returned untouched. -/
theorem get_rate_same_currency_shortcut
    (cfg : List (String × Int)) (now : Int) (nowStr : String)
    (cache : Snapshot) (fb : FetchBehavior) (f t : String) (cf ct : Currency)
    (hf : get_currency f = .ok cf) (ht : get_currency t = .ok ct)
    (heq : cf.code = ct.code) :
    get_rate cfg now nowStr cache fb f t =
      (.ok (true,
            "Курс " ++ cf.code ++ "→" ++ ct.code ++ ": 1.0 (одинаковые валюты)",
            1, nowStr),
       cache, []) := by
  simp [get_rate, hf, ht, heq]

/-- Witness for C7: `"usd"` and `" USD "` both resolve to the registered
USD, and the call returns rate `1` with an empty effect trace. -/
theorem get_rate_same_currency_shortcut_witness :
    get_rate [] 1767225600 "NOW"
      ⟨[("BTC_USD", ⟨50000, "2026-01-01T00:00:00", some "coingecko"⟩)], none, none⟩
      ⟨none, emptySnapshot⟩ "usd" " USD " =
      (.ok (true, "Курс USD→USD: 1.0 (одинаковые валюты)", 1, "NOW"),
       ⟨[("BTC_USD", ⟨50000, "2026-01-01T00:00:00", some "coingecko"⟩)], none, none⟩,
       []) :=
  get_rate_same_currency_shortcut [] 1767225600 "NOW"
    ⟨[("BTC_USD", ⟨50000, "2026-01-01T00:00:00", some "coingecko"⟩)], none, none⟩
    ⟨none, emptySnapshot⟩ "usd" " USD "
    ⟨"US Dollar", "USD", .fiat "United States"⟩
    ⟨"US Dollar", "USD", .fiat "United States"⟩
    (by decide) (by decide) rfl

theorem alookup_mem {α : Type} (l : List (String × α)) (q : String) (v : α)
    (h : alookup l q = some v) : (q, v) ∈ l := by
  induction l with
  | nil => simp [alookup] at h
  | cons hd tl ih =>
    obtain ⟨k, w⟩ := hd
    by_cases hk : k = q
    · subst hk
      simp [alookup] at h
      simp [h]
    · simp [alookup, hk] at h
      simp [ih h]

theorem get_currency_code_valid (s : String) (c : Currency)
    (h : get_currency s = .ok c) : validCodeL c.code.toList = true := by
  simp only [get_currency] at h
  rcases halo : alookup registry (stripUpper s) with _ | c1 <;> rw [halo] at h
  · simp at h
  · simp only [Except.ok.injEq] at h
    subst h
    have hmem := alookup_mem registry (stripUpper s) c1 halo
    simp only [registry, List.mem_cons, List.not_mem_nil, or_false] at hmem
    rcases hmem with h | h | h | h | h | h | h | h <;> rw [Prod.mk.injEq] at h <;>
      rw [h.2] <;> decide

theorem splitFirstUnderscore_no_underscore (la lb : List Char)
    (h : ∀ c ∈ la, isUpperAlpha c = true) :
    splitFirstUnderscore (la ++ '_' :: lb) = some (la, lb) := by
  induction la with
  | nil => simp [splitFirstUnderscore]
  | cons c cs ih =>
    have hc : isUpperAlpha c = true := h c (by simp)
    have hcne : c ≠ '_' := by
      intro he
      subst he
      simp [isUpperAlpha] at hc
    simp [splitFirstUnderscore, hcne, ih (fun c1 hc1 => h c1 (by simp [hc1]))]

theorem pairKeyValid_append (a b : String)
    (ha : validCodeL a.toList = true) (hb : validCodeL b.toList = true) :
    pairKeyValid (a ++ "_" ++ b) = true := by
  have hall : ∀ c ∈ a.toList, isUpperAlpha c = true := by
    have h1 := ha
    simp [validCodeL, List.all_eq_true, Bool.and_eq_true] at h1
    exact h1.2
  have hsplit := splitFirstUnderscore_no_underscore a.toList b.toList hall
  have hl : (a ++ "_" ++ b).toList = a.toList ++ '_' :: b.toList := by
    show (a ++ "_" ++ b).data = a.data ++ '_' :: b.data
    rw [String.data_append, String.data_append, List.append_assoc]
    rfl
  unfold pairKeyValid
  rw [hl, hsplit]
  show (validCodeL a.toList && validCodeL b.toList) = true
  rw [ha, hb]
  rfl

theorem snapshotInv_iff (snap : Snapshot) :
    snapshotInv snap = true ↔
      ∀ kv ∈ snap.pairs, pairKeyValid kv.1 = true ∧ 0 < kv.2.rate := by
  simp [snapshotInv, List.all_eq_true, Bool.and_eq_true, decide_eq_true_eq]

theorem save_current_rates_preserves_inv
    (rates : List (String × ℚ)) (source : String) (lr? : Option String)
    (now : String) (snap : Snapshot)
    (hinv : snapshotInv snap = true)
    (hrates : ∀ kv ∈ rates, pairKeyValid kv.1 = true ∧ 0 < kv.2) :
    snapshotInv (save_current_rates rates source lr? now snap).1 = true := by
  rw [snapshotInv_iff] at hinv ⊢
  intro kv hkv
  by_cases hcond : source ≠ "multiple" ∧ snap.pairs ≠ []
  · simp only [save_current_rates, if_pos hcond] at hkv
    rcases mem_upsertMany _ rates snap.pairs kv hkv with h | ⟨kv1, hkv1, hx⟩
    · exact hinv kv h
    · subst hx
      exact ⟨(hrates kv1 hkv1).1, (hrates kv1 hkv1).2⟩
  · simp only [save_current_rates, if_neg hcond] at hkv
    rcases mem_upsertMany _ rates [] kv hkv with h | ⟨kv1, hkv1, hx⟩
    · simp at h
    · subst hx
      exact ⟨(hrates kv1 hkv1).1, (hrates kv1 hkv1).2⟩

theorem exchangeRateRates_entries (conv : List (String × ℚ)) :
    ∀ kv ∈ exchangeRateRates conv, pairKeyValid kv.1 = true ∧ 0 < kv.2 := by
  intro kv hkv
  have := mem_foldl_append
    (fun acc c =>
      match alookup conv c with
      | none => acc
      | some raw =>
        if raw ≤ 0 then acc
        else acc ++ [(c ++ "_" ++ BASE_CURRENCY, 1 / raw)])
    (fun kv => pairKeyValid kv.1 = true ∧ 0 < kv.2) FIAT_CURRENCIES
    (by
      intro a c hc x hx
      simp only at hx
      rcases hr : alookup conv c with _ | raw
      · rw [hr] at hx; exact Or.inl hx
      · rw [hr] at hx
        simp only at hx
        by_cases hle : raw ≤ 0
        · rw [if_pos hle] at hx; exact Or.inl hx
        · rw [if_neg hle] at hx
          rcases List.mem_append.mp hx with h | h
          · exact Or.inl h
          · right
            simp at h
            subst h
            refine ⟨?_, inv_pos.mpr (not_le.mp hle)⟩
            show pairKeyValid (c ++ "_" ++ BASE_CURRENCY) = true
            simp only [FIAT_CURRENCIES, List.mem_cons, List.not_mem_nil, or_false] at hc
            rcases hc with h | h | h | h | h <;> subst h <;> decide)
    [] kv (by simpa [exchangeRateRates] using hkv)
  rcases this with h | h
  · simp at h
  · exact h

theorem coinGeckoRates_keys (data : List (String × List (String × ℚ))) :
    ∀ kv ∈ coinGeckoRates data, pairKeyValid kv.1 = true := by
  intro kv hkv
  have := mem_foldl_append
    (fun acc (kv1 : String × String) =>
      match alookup data kv1.2 with
      | none => acc
      | some quotes =>
        match alookup quotes (⟨BASE_CURRENCY.toList.map lowerChar⟩ : String) with
        | none => acc
        | some v => acc ++ [(kv1.1 ++ "_" ++ BASE_CURRENCY, v)])
    (fun kv => pairKeyValid kv.1 = true) CRYPTO_ID_MAP
    (by
      intro a c hc x hx
      simp only at hx
      rcases hq : alookup data c.2 with _ | quotes
      · rw [hq] at hx; exact Or.inl hx
      · rw [hq] at hx
        simp only at hx
        rcases hv : alookup quotes (⟨BASE_CURRENCY.toList.map lowerChar⟩ : String) with _ | v
        · rw [hv] at hx; exact Or.inl hx
        · rw [hv] at hx
          rcases List.mem_append.mp hx with h | h
          · exact Or.inl h
          · right
            simp at h
            subst h
            show pairKeyValid (c.1 ++ "_" ++ BASE_CURRENCY) = true
            simp only [CRYPTO_ID_MAP, List.mem_cons, List.not_mem_nil, or_false] at hc
            rcases hc with h | h | h <;> subst h <;> decide)
    [] kv (by simpa [coinGeckoRates] using hkv)
  rcases this with h | h
  · simp at h
  · exact h

theorem resolveViaFetch_preserves_inv (cfg : List (String × Int)) (now : Int)
    (nowStr : String) (fb : FetchBehavior) (fc tc : String)
    (hinv : snapshotInv fb.cacheAfter = true)
    (hpos : ∀ q, fb.result = some q → 0 < q)
    (hkey : pairKeyValid (fc ++ "_" ++ tc) = true) :
    snapshotInv (resolveViaFetch cfg now nowStr fb fc tc).2.1 = true := by
  have hstep : ∀ fetched : ℚ, fb.result = some fetched →
      snapshotInv (⟨upsert (fc ++ "_" ++ tc) ⟨fetched, nowStr, none⟩ fb.cacheAfter.pairs,
        some nowStr, some "ParserService"⟩ : Snapshot) = true := by
    intro fetched hres
    rw [snapshotInv_iff]
    intro kv hkv
    rcases mem_upsert _ _ _ kv hkv with h | h
    · subst h
      exact ⟨hkey, hpos fetched hres⟩
    · exact (snapshotInv_iff _).mp hinv kv h
  unfold resolveViaFetch
  rcases hres : fb.result with _ | fetched
  · simpa using hinv
  · rcases hdir : alookup fb.cacheAfter.pairs (fc ++ "_" ++ tc) with _ | e
    · rcases hrev : alookup fb.cacheAfter.pairs (tc ++ "_" ++ fc) with _ | e1
      · simp only [hdir, hrev]
        simpa using hstep fetched hres
      · simp only [hdir, hrev]
        split
        · simpa using hinv
        · simpa using hstep fetched hres
    · simp only [hdir]
      split
      · simpa using hinv
      · rcases hrev : alookup fb.cacheAfter.pairs (tc ++ "_" ++ fc) with _ | e1
        · simp only [hrev]
          simpa using hstep fetched hres
        · simp only [hrev]
          split
          · simpa using hinv
          · simpa using hstep fetched hres

theorem get_fresh_rate_preserves_inv (cfg : List (String × Int)) (now : Int)
    (nowStr : String) (cache : Snapshot) (fb : FetchBehavior) (f t : String)
    (hcache : snapshotInv cache = true)
    (hafter : snapshotInv fb.cacheAfter = true)
    (hpos : ∀ q, fb.result = some q → 0 < q) :
    snapshotInv (get_fresh_rate cfg now nowStr cache fb f t).2.1 = true := by
  unfold get_fresh_rate
  rcases hf : get_currency f with _ | cf
  · simpa using hcache
  · rcases ht : get_currency t with _ | ct
    · simpa using hcache
    · have hkey : pairKeyValid (cf.code ++ "_" ++ ct.code) = true :=
        pairKeyValid_append _ _
          (get_currency_code_valid f cf hf) (get_currency_code_valid t ct ht)
      have hres := resolveViaFetch_preserves_inv cfg now nowStr fb cf.code ct.code
        hafter hpos hkey
      rcases hdir : alookup cache.pairs (cf.code ++ "_" ++ ct.code) with _ | e
      · rcases hrev : alookup cache.pairs (ct.code ++ "_" ++ cf.code) with _ | e1
        · simpa [hdir, hrev] using hres
        · simp only [hdir, hrev]
          split
          · simpa using hcache
          · simpa using hres
      · simp only [hdir]
        split
        · simpa using hcache
        · rcases hrev : alookup cache.pairs (ct.code ++ "_" ++ cf.code) with _ | e1
          · simpa [hrev] using hres
          · simp only [hrev]
            split
            · simpa using hcache
            · simpa using hres

/-- Counterexample to C8 as stated: `CoinGeckoClient.fetch_rates` passes
API price values through unchecked, so a CoinGecko response quoting
bitcoin at `0` flows through `run_update` into a written snapshot whose
`BTC_USD` entry has rate `0`, violating the strict-positivity half of the
claimed invariant. -/
theorem snapshot_invariant_counterexample :
    snapshotInv ((run_update
        [("coingecko", .ok (coinGeckoRates [("bitcoin", [("usd", 0)])]))]
        none "2026-01-01T00:00:00" ⟨emptySnapshot, []⟩).2.snapshot) = false := by
  decide

/-- C8 (amended): every snapshot written by the system's snapshot writers
has pair keys matching the spec regex, and strictly positive rates
provided the incoming fetched rates are strictly positive.  Concretely:
`save_current_rates` preserves the invariant whenever every incoming pair
has a valid key and a positive rate; the ExchangeRate client only ever
produces valid keys with positive rates; the CoinGecko client produces
valid keys but passes rate values through unchecked (whence the proviso —
see the counterexample); and the `get_fresh_rate` write-back preserves
the invariant whenever the fetched value is positive. -/
theorem snapshot_writers_invariant :
    (∀ rates source lr? now snap,
      snapshotInv snap = true →
      (∀ kv ∈ rates, pairKeyValid kv.1 = true ∧ 0 < kv.2) →
      snapshotInv (save_current_rates rates source lr? now snap).1 = true) ∧
    (∀ conv, ∀ kv ∈ exchangeRateRates conv, pairKeyValid kv.1 = true ∧ 0 < kv.2) ∧
    (∀ data, ∀ kv ∈ coinGeckoRates data, pairKeyValid kv.1 = true) ∧
    (∀ cfg now nowStr cache fb f t,
      snapshotInv cache = true →
      snapshotInv fb.cacheAfter = true →
      (∀ q, fb.result = some q → 0 < q) →
      snapshotInv (get_fresh_rate cfg now nowStr cache fb f t).2.1 = true) :=
  ⟨save_current_rates_preserves_inv, exchangeRateRates_entries, coinGeckoRates_keys,
   get_fresh_rate_preserves_inv⟩

/-- Witness for the amended C8: a positive one-pair update written over a
valid snapshot keeps the invariant, and the write-back path keeps it for
a positive fetched rate. -/
theorem snapshot_writers_invariant_witness :
    snapshotInv (save_current_rates [("BTC_USD", 50000)] "coingecko" none "T1"
      ⟨[("EUR_USD", ⟨2, "T0", some "exchangerate"⟩)], some "T0", some "exchangerate"⟩).1
      = true ∧
    snapshotInv (get_fresh_rate [] 1767225600 "2026-01-01T00:00:00"
      emptySnapshot ⟨some 3, emptySnapshot⟩ "BTC" "USD").2.1 = true :=
  ⟨snapshot_writers_invariant.1 [("BTC_USD", 50000)] "coingecko" none "T1"
      ⟨[("EUR_USD", ⟨2, "T0", some "exchangerate"⟩)], some "T0", some "exchangerate"⟩
      (by decide)
      (by intro kv hkv; simp at hkv; subst hkv; exact ⟨by decide, by decide⟩),
   snapshot_writers_invariant.2.2.2 [] 1767225600 "2026-01-01T00:00:00"
      emptySnapshot ⟨some 3, emptySnapshot⟩ "BTC" "USD"
      (by decide) (by decide)
      (by intro q hq; simp at hq; subst hq; decide)⟩

end ValutaTradeHub
